import Mathlib

/-!
Verification of the text-cleaning and sentiment-labeling core of the
x-analysis repository (`scripts/processing/sentiment_analyzer.py` and the
inline Spark UDF in `scripts/processing/spark_processor.py`).

Text is modelled as `List Char`.  The two `re.sub` passes of `clean_text`
are embedded as left-to-right leftmost-match scans, exactly mirroring
Python's `re.sub` semantics for the patterns used by the source:

  * `http\S+|www\S+|https\S+`  — at each position, a match starts when the
    text begins with `http` (which subsumes the redundant `https`
    alternative) or `www`, followed by at least one non-whitespace
    character; the greedy `\S+` then consumes the whole maximal
    non-whitespace run, and scanning resumes after it.
  * `@\w+|#\w+` — a match starts at `@` or `#` followed by at least one
    word character; the greedy `\w+` consumes the maximal word-character
    run.

`' '.join(text.split())` is embedded as `joinWords (pySplit l)` and
`.strip()` as `pyStrip`.  The character classes `\s`/`str.split`
whitespace and `\w` are modelled over their ASCII fragments.

The external TextBlob scorer is a black-box dependency (spec §4.1 treats
it as an injected capability); it is modelled as a parameter
`score : List Char → Option (ℚ × ℚ)` returning polarity and subjectivity,
with `none` standing for the scorer raising an exception (the single
failure kind absorbed by the `try`/`except` of `analyze_sentiment`).
-/

/-- ASCII fragment of Python's whitespace class (used both by the regex
class `\s`/`\S` and by `str.split()`). -/
def pyIsSpace (c : Char) : Bool :=
  decide (c = ' ') || decide (c = '\t') || decide (c = '\n') ||
    decide (c = '\r') || decide (c = '\x0b') || decide (c = '\x0c')

/-- ASCII fragment of Python's regex word class `\w`: alphanumerics and
underscore. -/
def pyIsWordChar (c : Char) : Bool :=
  c.isAlphanum || decide (c = '_')

/-- `listStarts pat l` holds when `pat` is a prefix of `l` (character by
character). -/
def listStarts : List Char → List Char → Bool
  | [], _ => true
  | _ :: _, [] => false
  | p :: ps, c :: cs => decide (p = c) && listStarts ps cs

/-- The head of the list exists and is not whitespace (the `\S` test the
regex engine performs right after the literal `http`/`www`). -/
def hdNonspace : List Char → Bool
  | [] => false
  | c :: _ => !pyIsSpace c

/-- A match of `http\S+|www\S+|https\S+` starts at the head of the list:
a literal `http` (which also covers the `https` alternative) or `www`
followed by at least one non-whitespace character. -/
def urlAt (l : List Char) : Bool :=
  (listStarts (['h', 't', 't', 'p']) l && hdNonspace (l.drop 4)) ||
    (listStarts (['w', 'w', 'w']) l && hdNonspace (l.drop 3))

/-- A match of `@\w+|#\w+` starts at the head of the list. -/
def mentionAt : List Char → Bool
  | c :: d :: _ => (decide (c = '@') || decide (c = '#')) && pyIsWordChar d
  | _ => false

/-- `re.sub(r'http\S+|www\S+|https\S+', '', text)`: left-to-right scan;
at a match position the greedy `\S+` consumes the maximal non-whitespace
run (the literal `http`/`www` is itself non-whitespace), and the scan
resumes after it. -/
def removeUrls : List Char → List Char
  | [] => []
  | c :: cs =>
    if urlAt (c :: cs) then removeUrls (cs.dropWhile (fun x => !pyIsSpace x))
    else c :: removeUrls cs
termination_by l => l.length
decreasing_by
  all_goals first
    | (simp only [List.length_cons]
       have hle : ∀ (q : Char → Bool) (m : List Char),
           (m.dropWhile q).length ≤ m.length := by
         intro q m
         induction m with
         | nil => simp
         | cons a as iha =>
           rw [List.dropWhile_cons]
           by_cases hq : q a = true
           · simp only [hq, if_true, List.length_cons]
             omega
           · simp [hq]
       exact Nat.lt_succ_of_le (hle _ _))
    | simp

/-- `re.sub(r'@\w+|#\w+', '', text)`: left-to-right scan; at a match
position the greedy `\w+` consumes the maximal word-character run after
the sigil, and the scan resumes after it. -/
def removeMentions : List Char → List Char
  | [] => []
  | c :: cs =>
    if mentionAt (c :: cs) then removeMentions (cs.dropWhile pyIsWordChar)
    else c :: removeMentions cs
termination_by l => l.length
decreasing_by
  all_goals first
    | (simp only [List.length_cons]
       have hle : ∀ (q : Char → Bool) (m : List Char),
           (m.dropWhile q).length ≤ m.length := by
         intro q m
         induction m with
         | nil => simp
         | cons a as iha =>
           rw [List.dropWhile_cons]
           by_cases hq : q a = true
           · simp only [hq, if_true, List.length_cons]
             omega
           · simp [hq]
       exact Nat.lt_succ_of_le (hle _ _))
    | simp

/-- Python `text.split()`: the list of maximal non-whitespace runs, in
order, with empty runs discarded. -/
def pySplit : List Char → List (List Char)
  | [] => []
  | c :: cs =>
    if pyIsSpace c then pySplit cs
    else (c :: cs.takeWhile (fun x => !pyIsSpace x)) ::
      pySplit (cs.dropWhile (fun x => !pyIsSpace x))
termination_by l => l.length
decreasing_by
  all_goals first
    | (simp only [List.length_cons]
       have hle : ∀ (q : Char → Bool) (m : List Char),
           (m.dropWhile q).length ≤ m.length := by
         intro q m
         induction m with
         | nil => simp
         | cons a as iha =>
           rw [List.dropWhile_cons]
           by_cases hq : q a = true
           · simp only [hq, if_true, List.length_cons]
             omega
           · simp [hq]
       exact Nat.lt_succ_of_le (hle _ _))
    | simp

/-- Python `' '.join(words)`. -/
def joinWords : List (List Char) → List Char
  | [] => []
  | [w] => w
  | w :: ws => w ++ ' ' :: joinWords ws

/-- Python `text.strip()`: drop whitespace from both ends. -/
def pyStrip (l : List Char) : List Char :=
  ((l.dropWhile pyIsSpace).reverse.dropWhile pyIsSpace).reverse

/-- Step 3 of the cleaning contract (spec 4.1): collapse whitespace runs
to single spaces and trim the ends (`' '.join(l.split())` followed by
`.strip()`). -/
def collapseWhitespace (l : List Char) : List Char :=
  pyStrip (joinWords (pySplit l))

/-- `SentimentAnalyzer.clean_text`, line for line: URL removal, then
mention/hashtag removal, then `' '.join(text.split())`, then `.strip()`. -/
def clean_text (text : List Char) : List Char :=
  let text := removeUrls text
  let text := removeMentions text
  let text := joinWords (pySplit text)
  pyStrip text

/-- The dictionary returned by `SentimentAnalyzer.analyze_sentiment`. -/
structure SentimentResult where
  cleaned_text : List Char
  polarity : ℚ
  subjectivity : ℚ
  sentiment_label : String
  confidence : ℚ
deriving DecidableEq

/-- The threshold rule of `analyze_sentiment` (and of the Spark UDF):
`polarity > 0.1 → positive`, `polarity < -0.1 → negative`, else
`neutral`. -/
def classifySentiment (polarity : ℚ) : String :=
  if polarity > 1/10 then ("positive")
  else if polarity < -(1/10) then ("negative")
  else ("neutral")

/-- The `except` branch of `analyze_sentiment`: the original (uncleaned)
text with zero scores and the neutral label. -/
def neutralDefault (text : List Char) : SentimentResult :=
  { cleaned_text := text, polarity := 0, subjectivity := 0,
    sentiment_label := ("neutral"), confidence := 0 }

/-- `SentimentAnalyzer.analyze_sentiment`: clean, score with the external
scorer, classify by thresholds, report `abs(polarity)` as confidence; on
scorer failure (`none`), fall back to the neutral default built from the
original input text. -/
def analyze_sentiment (score : List Char → Option (ℚ × ℚ))
    (text : List Char) : SentimentResult :=
  match score (clean_text text) with
  | some (p, s) =>
    { cleaned_text := clean_text text, polarity := p, subjectivity := s,
      sentiment_label := classifySentiment p, confidence := |p| }
  | none => neutralDefault text

/-- An input row of `batch_analyze` (a dataframe record with a `text`
column). -/
structure TextRecord where
  text : List Char
deriving DecidableEq

/-- `SentimentAnalyzer.batch_analyze`: analyze each row's `text`
independently, in order, and concatenate the sentiment fields onto the
corresponding input row (`pd.concat([...], axis=1)` after
`reset_index`). -/
def batch_analyze (score : List Char → Option (ℚ × ℚ))
    (tweets : List TextRecord) : List (TextRecord × SentimentResult) :=
  tweets.map (fun t => (t, analyze_sentiment score t.text))

/-- The only per-instance state of `SentimentAnalyzer` is the logger
handle installed by `setup_logging`; it is modelled as an opaque token. -/
structure AnalyzerState where
  loggerId : Nat
deriving DecidableEq

/-- `analyze_sentiment` as a state-passing method of the analyzer object:
the returned dictionary and the log lines emitted (the `except` branch
logs one error line); the instance state is returned unchanged because
the method never assigns to `self`. -/
def analyze_sentiment_method (score : List Char → Option (ℚ × ℚ))
    (st : AnalyzerState) (text : List Char) :
    SentimentResult × AnalyzerState × List String :=
  match score (clean_text text) with
  | some (p, s) =>
    ({ cleaned_text := clean_text text, polarity := p, subjectivity := s,
       sentiment_label := classifySentiment p, confidence := |p| }, st, [])
  | none => (neutralDefault text, st, [("Error analyzing sentiment")])

/-- The cleaning sequence inlined in `analyze_sentiment_udf`
(`spark_processor.py`): the same three steps, written as successive
rebindings of `cleaned`. -/
def udfClean (text : List Char) : List Char :=
  let cleaned := removeUrls text
  let cleaned := removeMentions cleaned
  pyStrip (joinWords (pySplit cleaned))

/-- The inline Spark UDF `analyze_sentiment_udf`: clean, score, classify
by the same thresholds, and return the 4-tuple
`(polarity, subjectivity, sentiment_label, abs(polarity))`; the bare
`except` returns `(0.0, 0.0, 'neutral', 0.0)`. -/
def analyze_sentiment_udf (score : List Char → Option (ℚ × ℚ))
    (text : List Char) : ℚ × ℚ × String × ℚ :=
  match score (udfClean text) with
  | some (p, s) =>
    let sentiment_label :=
      if p > 1/10 then ("positive")
      else if p < -(1/10) then ("negative")
      else ("neutral")
    (p, s, sentiment_label, |p|)
  | none => (0, 0, ("neutral"), 0)

/-- `occursIn pat l`: `pat` occurs as a contiguous substring of `l`. -/
def occursIn (pat : List Char) : List Char → Bool
  | [] => listStarts pat []
  | c :: cs => listStarts pat (c :: cs) || occursIn pat cs

/-- Some suffix of `l` begins a `http\S+|www\S+|https\S+` match, i.e. the
URL pattern still matches somewhere in `l`. -/
def containsUrl : List Char → Bool
  | [] => false
  | c :: cs => urlAt (c :: cs) || containsUrl cs

/-- Some suffix of `l` begins an `@\w+|#\w+` match. -/
def containsMention : List Char → Bool
  | [] => false
  | c :: cs => mentionAt (c :: cs) || containsMention cs

/-- The head, if any, is not whitespace. -/
def noLeadSpace : List Char → Bool
  | [] => true
  | c :: _ => !pyIsSpace c

/-- No two consecutive whitespace characters. -/
def noDoubleSpace : List Char → Bool
  | c :: d :: rest => !(pyIsSpace c && pyIsSpace d) && noDoubleSpace (d :: rest)
  | _ => true

/-- The last character, if any, is not whitespace. -/
def noTrailSpace (l : List Char) : Bool :=
  match l.getLast? with
  | none => true
  | some c => !pyIsSpace c

/-! ### Supporting lemmas -/

theorem dropWhile_length_le (p : Char → Bool) (l : List Char) :
    (l.dropWhile p).length ≤ l.length := by
  induction l with
  | nil => simp
  | cons c cs ih =>
    rw [List.dropWhile_cons]
    by_cases h : p c = true
    · simp only [h, if_true, List.length_cons]
      omega
    · simp [h]

/-! ### Character-class facts -/

theorem char_ne_of (f : Char → Bool) {x y : Char} (hx : f x = true)
    (hy : f y = false) : x ≠ y := by
  intro h
  rw [h] at hx
  rw [hx] at hy
  exact absurd hy (by decide)

theorem space_not_word {c : Char} (h : pyIsSpace c = true) :
    pyIsWordChar c = false := by
  simp only [pyIsSpace, Bool.or_eq_true, decide_eq_true_eq] at h
  rcases h with ((((h | h) | h) | h) | h) | h <;> subst h <;> decide

/-! ### Small list helpers -/

theorem drop_append_le {A x : List Char} :
    ∀ {j : Nat}, j ≤ A.length → (A ++ x).drop j = A.drop j ++ x := by
  induction A with
  | nil =>
    intro j hj
    have hj0 : j = 0 := Nat.le_zero.mp hj
    subst hj0
    simp
  | cons a A ih =>
    intro j hj
    cases j with
    | zero => simp
    | succ j =>
      simp only [List.cons_append, List.drop_succ_cons]
      exact ih (Nat.le_of_succ_le_succ hj)

theorem listStarts_length_le : ∀ {pat l : List Char},
    listStarts pat l = true → pat.length ≤ l.length := by
  intro pat
  induction pat with
  | nil => intro l _; simp
  | cons p ps ih =>
    intro l h
    cases l with
    | nil => simp [listStarts] at h
    | cons c cs =>
      simp only [listStarts, Bool.and_eq_true] at h
      simpa using ih h.2

theorem listStarts_append {pat A : List Char} (x : List Char)
    (h : listStarts pat A = true) : listStarts pat (A ++ x) = true := by
  induction pat generalizing A with
  | nil => simp [listStarts]
  | cons p ps ih =>
    cases A with
    | nil => simp [listStarts] at h
    | cons c cs =>
      simp only [listStarts, Bool.and_eq_true] at h
      simp only [List.cons_append, listStarts, Bool.and_eq_true]
      exact ⟨h.1, ih h.2⟩

theorem hdNonspace_drop_append {A : List Char} (x : List Char) {j : Nat}
    (h : hdNonspace (A.drop j) = true) :
    hdNonspace ((A ++ x).drop j) = true := by
  have hj : j ≤ A.length := by
    by_contra hc
    push_neg at hc
    rw [List.drop_eq_nil_of_le (Nat.le_of_lt hc)] at h
    simp [hdNonspace] at h
  rw [drop_append_le hj]
  cases hD : A.drop j with
  | nil => rw [hD] at h; simp [hdNonspace] at h
  | cons c rest =>
    rw [hD] at h
    simpa [hdNonspace] using h

/-! ### Window lemmas for `urlAt` and `mentionAt`

A match of either pattern inspects only a bounded window at the head of
the list (five characters for the URL pattern, two for the mention
pattern).  The lemmas below describe how a match at the head interacts
with a change of the list at some position: replacing the tail beyond a
whitespace character never affects a match (`urlAt_append_space`), and a
match that survives with a non-word character at position `|A|` also
holds with any non-whitespace character there (`urlAt_swap`). -/

theorem urlAt_nil : urlAt [] = false := by decide

theorem urlAt_space_cons {w : Char} (B : List Char)
    (hw : pyIsSpace w = true) : urlAt (w :: B) = false := by
  have h1 : ('h' : Char) ≠ w := char_ne_of pyIsSpace hw (by decide) |>.symm
  have h2 : ('w' : Char) ≠ w := char_ne_of pyIsSpace hw (by decide) |>.symm
  simp [urlAt, listStarts, h1, h2]

theorem mentionAt_space_cons {w : Char} (B : List Char)
    (hw : pyIsSpace w = true) : mentionAt (w :: B) = false := by
  have h1 : w ≠ '@' := char_ne_of pyIsSpace hw (by decide)
  have h2 : w ≠ '#' := char_ne_of pyIsSpace hw (by decide)
  cases B <;> simp [mentionAt, h1, h2]

theorem urlAt_append {A : List Char} (x : List Char) (h : urlAt A = true) :
    urlAt (A ++ x) = true := by
  simp only [urlAt, Bool.or_eq_true, Bool.and_eq_true] at h ⊢
  rcases h with ⟨hs, hd⟩ | ⟨hs, hd⟩
  · exact Or.inl ⟨listStarts_append x hs, hdNonspace_drop_append x hd⟩
  · exact Or.inr ⟨listStarts_append x hs, hdNonspace_drop_append x hd⟩

theorem mentionAt_append {A : List Char} (x : List Char)
    (h : mentionAt A = true) : mentionAt (A ++ x) = true := by
  match A with
  | [] => simp [mentionAt] at h
  | [a] => simp [mentionAt] at h
  | a :: b :: rest => simpa [mentionAt] using h

theorem urlAt_head {m : List Char} (h : urlAt m = true) :
    ∃ s C, m = s :: C ∧ pyIsSpace s = false := by
  cases m with
  | nil => rw [urlAt_nil] at h; exact absurd h (by decide)
  | cons s C =>
    refine ⟨s, C, rfl, ?_⟩
    simp only [urlAt, Bool.or_eq_true, Bool.and_eq_true] at h
    rcases h with ⟨hs, _⟩ | ⟨hs, _⟩ <;>
      · simp only [listStarts, Bool.and_eq_true, decide_eq_true_eq] at hs
        rw [← hs.1]
        decide

theorem mentionAt_head {m : List Char} (h : mentionAt m = true) :
    ∃ s C, m = s :: C ∧ pyIsSpace s = false := by
  match m with
  | [] => simp [mentionAt] at h
  | [a] => simp [mentionAt] at h
  | a :: b :: rest =>
    refine ⟨a, b :: rest, rfl, ?_⟩
    simp only [mentionAt, Bool.and_eq_true, Bool.or_eq_true,
      decide_eq_true_eq] at h
    rcases h.1 with h1 | h1 <;> (rw [h1]; decide)

/-- Replacing everything after a whitespace character never changes
whether the URL pattern matches at the head: the match lives inside one
maximal non-whitespace run. -/
theorem urlAt_space_split {w : Char} (A B : List Char)
    (hw : pyIsSpace w = true) : urlAt (A ++ w :: B) = urlAt A := by
  have hh : ('h' : Char) ≠ w := (char_ne_of pyIsSpace hw (by decide)).symm
  have ht : ('t' : Char) ≠ w := (char_ne_of pyIsSpace hw (by decide)).symm
  have hp : ('p' : Char) ≠ w := (char_ne_of pyIsSpace hw (by decide)).symm
  have hw' : ('w' : Char) ≠ w := (char_ne_of pyIsSpace hw (by decide)).symm
  match A with
  | [] => simp [urlAt, listStarts, hh, hw']
  | [a] => simp [urlAt, listStarts, hdNonspace, ht, hw']
  | [a, b] => simp [urlAt, listStarts, hdNonspace, ht, hw']
  | [a, b, c] => simp [urlAt, listStarts, hdNonspace, hp, hw]
  | [a, b, c, d] => simp [urlAt, listStarts, hdNonspace, hw]
  | a :: b :: c :: d :: e :: rest => simp [urlAt, listStarts, hdNonspace]

/-- Same statement for the mention pattern (two-character window). -/
theorem mentionAt_space_split {w : Char} (A B : List Char)
    (hw : pyIsSpace w = true) : mentionAt (A ++ w :: B) = mentionAt A := by
  have h1 : w ≠ '@' := char_ne_of pyIsSpace hw (by decide)
  have h2 : w ≠ '#' := char_ne_of pyIsSpace hw (by decide)
  have h3 : pyIsWordChar w = false := space_not_word hw
  match A with
  | [] => cases B <;> simp [mentionAt, h1, h2]
  | [a] => simp [mentionAt, h3]
  | a :: b :: rest => simp [mentionAt]

/-- If the URL pattern matches at the head of `A ++ t :: B` with `t` a
non-word character, then it also matches when the part from position
`|A|` on is replaced by anything starting with a non-whitespace
character: `t` can only have served as the `\S` witness, never as one of
the literal pattern characters. -/
theorem urlAt_swap {t s : Char} (A B C : List Char)
    (ht : pyIsWordChar t = false) (hs : pyIsSpace s = false)
    (h : urlAt (A ++ t :: B) = true) : urlAt (A ++ s :: C) = true := by
  have hht : ('h' : Char) ≠ t := char_ne_of pyIsWordChar (by decide) ht
  have htt : ('t' : Char) ≠ t := char_ne_of pyIsWordChar (by decide) ht
  have hpt : ('p' : Char) ≠ t := char_ne_of pyIsWordChar (by decide) ht
  have hwt : ('w' : Char) ≠ t := char_ne_of pyIsWordChar (by decide) ht
  match A with
  | [] => simp [urlAt, listStarts, hht, hwt] at h
  | [a] => simp [urlAt, listStarts, hdNonspace, htt, hwt] at h
  | [a, b] => simp [urlAt, listStarts, hdNonspace, htt, hwt] at h
  | [a, b, c] =>
    simp [urlAt, listStarts, hdNonspace, hpt] at h ⊢
    exact Or.inr ⟨h.1, hs⟩
  | [a, b, c, d] =>
    simp [urlAt, listStarts, hdNonspace] at h ⊢
    rcases h with ⟨hc, _⟩ | hc
    · exact Or.inl ⟨hc, hs⟩
    · exact Or.inr hc
  | a :: b :: c :: d :: e :: rest =>
    simpa [urlAt, listStarts, hdNonspace] using h

/-- Mention analogue of `urlAt_swap`; needs `A ≠ []` since at position
zero the sigil itself would have to be the non-word character `t`. -/
theorem mentionAt_swap {t s : Char} (A B C : List Char)
    (hA : A ≠ []) (ht : pyIsWordChar t = false)
    (h : mentionAt (A ++ t :: B) = true) : mentionAt (A ++ s :: C) = true := by
  match A with
  | [] => exact absurd rfl hA
  | [a] =>
    simp only [mentionAt, List.cons_append, List.nil_append,
      Bool.and_eq_true] at h
    rw [ht] at h
    exact absurd h.2 (by decide)
  | a :: b :: rest => simpa [mentionAt] using h

/-! ### Equation lemmas for the scanning functions -/

theorem removeUrls_nil : removeUrls [] = [] := by rw [removeUrls]

theorem removeUrls_cons_pos {c : Char} {cs : List Char}
    (h : urlAt (c :: cs) = true) :
    removeUrls (c :: cs) = removeUrls (cs.dropWhile (fun x => !pyIsSpace x)) := by
  rw [removeUrls, if_pos h]

theorem removeUrls_cons_neg {c : Char} {cs : List Char}
    (h : urlAt (c :: cs) = false) :
    removeUrls (c :: cs) = c :: removeUrls cs := by
  rw [removeUrls, if_neg (by simp [h])]

theorem removeMentions_nil : removeMentions [] = [] := by rw [removeMentions]

theorem removeMentions_cons_pos {c : Char} {cs : List Char}
    (h : mentionAt (c :: cs) = true) :
    removeMentions (c :: cs) = removeMentions (cs.dropWhile pyIsWordChar) := by
  rw [removeMentions, if_pos h]

theorem removeMentions_cons_neg {c : Char} {cs : List Char}
    (h : mentionAt (c :: cs) = false) :
    removeMentions (c :: cs) = c :: removeMentions cs := by
  rw [removeMentions, if_neg (by simp [h])]

theorem dropWhile_head_not (p : Char → Bool) (l : List Char) :
    l.dropWhile p = [] ∨ ∃ c cs, l.dropWhile p = c :: cs ∧ p c = false := by
  induction l with
  | nil => exact Or.inl rfl
  | cons c cs ih =>
    rw [List.dropWhile_cons]
    by_cases h : p c = true
    · simpa [h] using ih
    · simp only [h, if_false]
      exact Or.inr ⟨c, cs, by simp [h], by simpa using h⟩

/-- `removeUrls` keeps a leading whitespace character in place, so it
maps empty-or-whitespace-headed lists to empty-or-whitespace-headed
lists. -/
theorem removeUrls_space_head {m : List Char}
    (hm : m = [] ∨ ∃ w B, m = w :: B ∧ pyIsSpace w = true) :
    removeUrls m = [] ∨
      ∃ w B, removeUrls m = w :: B ∧ pyIsSpace w = true := by
  rcases hm with rfl | ⟨w, B, rfl, hw⟩
  · exact Or.inl removeUrls_nil
  · rw [removeUrls_cons_neg (urlAt_space_cons B hw)]
    exact Or.inr ⟨w, removeUrls B, rfl, hw⟩

/-- `removeMentions` maps empty-or-non-word-headed lists to
empty-or-non-word-headed lists (a non-word head such as `@` followed by
word characters is itself a match and gets consumed, leaving again a
non-word-headed remainder). -/
theorem removeMentions_nonword_head : (m : List Char) →
    (m = [] ∨ ∃ t B, m = t :: B ∧ pyIsWordChar t = false) →
    (removeMentions m = [] ∨
      ∃ t B, removeMentions m = t :: B ∧ pyIsWordChar t = false)
  | [], _ => Or.inl removeMentions_nil
  | c :: cs, hm => by
    by_cases h : mentionAt (c :: cs) = true
    · rw [removeMentions_cons_pos h]
      refine removeMentions_nonword_head _ ?_
      rcases dropWhile_head_not pyIsWordChar cs with h' | ⟨t, B, h', ht⟩
      · exact Or.inl h'
      · exact Or.inr ⟨t, B, h', ht⟩
    · rw [removeMentions_cons_neg (by simpa using h)]
      rcases hm with hne | ⟨t, B, he, ht⟩
      · exact absurd hne (by simp)
      · rw [List.cons_eq_cons] at he
        exact Or.inr ⟨c, removeMentions cs, rfl, he.1 ▸ ht⟩
termination_by m => m.length
decreasing_by
  simp only [List.length_cons]
  exact Nat.lt_succ_of_le (dropWhile_length_le _ _)

/-- First-match decomposition for `removeUrls`: either no match was
found and the scan copied the input verbatim, or the output agrees with
the input up to the leftmost match position `k` and continues with the
processed remainder, which is empty or whitespace-headed. -/
theorem removeUrls_shape : (l : List Char) →
    removeUrls l = l ∨
      ∃ k tail, removeUrls l = l.take k ++ tail ∧
        urlAt (l.drop k) = true ∧
        (tail = [] ∨ ∃ w B, tail = w :: B ∧ pyIsSpace w = true)
  | [] => Or.inl removeUrls_nil
  | c :: cs => by
    by_cases h : urlAt (c :: cs) = true
    · right
      refine ⟨0, removeUrls (cs.dropWhile (fun x => !pyIsSpace x)),
        by simpa using removeUrls_cons_pos h, by simpa using h, ?_⟩
      refine removeUrls_space_head ?_
      rcases dropWhile_head_not (fun x => !pyIsSpace x) cs with h' | ⟨w, B, h', hw⟩
      · exact Or.inl h'
      · exact Or.inr ⟨w, B, h', by simpa using hw⟩
    · have h' : urlAt (c :: cs) = false := by simpa using h
      rcases removeUrls_shape cs with he | ⟨k, tail, he, hk, htail⟩
      · left
        rw [removeUrls_cons_neg h', he]
      · right
        refine ⟨k + 1, tail, ?_, by simpa using hk, htail⟩
        rw [removeUrls_cons_neg h', he]
        simp
termination_by l => l.length
decreasing_by
  simp only [List.length_cons]
  exact Nat.lt_succ_of_le (Nat.le_refl _)

/-- First-match decomposition for `removeMentions`. -/
theorem removeMentions_shape : (l : List Char) →
    removeMentions l = l ∨
      ∃ k tail, removeMentions l = l.take k ++ tail ∧
        mentionAt (l.drop k) = true ∧
        (tail = [] ∨ ∃ t B, tail = t :: B ∧ pyIsWordChar t = false)
  | [] => Or.inl removeMentions_nil
  | c :: cs => by
    by_cases h : mentionAt (c :: cs) = true
    · right
      refine ⟨0, removeMentions (cs.dropWhile pyIsWordChar),
        by simpa using removeMentions_cons_pos h, by simpa using h, ?_⟩
      refine removeMentions_nonword_head _ ?_
      rcases dropWhile_head_not pyIsWordChar cs with h' | ⟨t, B, h', ht⟩
      · exact Or.inl h'
      · exact Or.inr ⟨t, B, h', ht⟩
    · have h' : mentionAt (c :: cs) = false := by simpa using h
      rcases removeMentions_shape cs with he | ⟨k, tail, he, hk, htail⟩
      · left
        rw [removeMentions_cons_neg h', he]
      · right
        refine ⟨k + 1, tail, ?_, by simpa using hk, htail⟩
        rw [removeMentions_cons_neg h', he]
        simp
termination_by l => l.length
decreasing_by
  simp only [List.length_cons]
  exact Nat.lt_succ_of_le (Nat.le_refl _)

/-! ### No residual matches after the removal passes -/

theorem urlAt_imp_containsUrl {l : List Char} (h : urlAt l = true) :
    containsUrl l = true := by
  cases l with
  | nil => rw [urlAt_nil] at h; exact absurd h (by decide)
  | cons c cs => simp [containsUrl, h]

theorem mentionAt_imp_containsMention {l : List Char}
    (h : mentionAt l = true) : containsMention l = true := by
  cases l with
  | nil => simp [mentionAt] at h
  | cons c cs => simp [containsMention, h]

theorem containsUrl_urlAt {l : List Char} (h : containsUrl l = false) :
    urlAt l = false := by
  cases l with
  | nil => exact urlAt_nil
  | cons c cs =>
    simp only [containsUrl, Bool.or_eq_false_iff] at h
    exact h.1

theorem containsMention_mentionAt {l : List Char}
    (h : containsMention l = false) : mentionAt l = false := by
  cases l with
  | nil => simp [mentionAt]
  | cons c cs =>
    simp only [containsMention, Bool.or_eq_false_iff] at h
    exact h.1

/-- If the whole input has no match at position zero, neither does the
output of `removeUrls`: a removal can only splice a whitespace-headed
(or empty) remainder onto an unchanged prefix, which cannot complete a
new match (`urlAt_swap` / `urlAt_append`). -/
theorem removeUrls_urlAt {l : List Char} (h : urlAt l = false) :
    urlAt (removeUrls l) = false := by
  rcases removeUrls_shape l with he | ⟨k, tail, he, hk, htail⟩
  · rw [he]; exact h
  · rw [he]
    rcases htail with rfl | ⟨w, B, rfl, hw⟩
    · rw [List.append_nil]
      cases hc : urlAt (l.take k) with
      | false => rfl
      | true =>
        have := urlAt_append (l.drop k) hc
        rw [List.take_append_drop, h] at this
        exact absurd this (by decide)
    · cases hc : urlAt (l.take k ++ w :: B) with
      | false => rfl
      | true =>
        obtain ⟨s, C, hsC, hs⟩ := urlAt_head hk
        have := urlAt_swap (l.take k) B C (space_not_word hw) hs hc
        rw [← hsC, List.take_append_drop, h] at this
        exact absurd this (by decide)

/-- Analogue of `removeUrls_urlAt` for the mention pass; here the
hypothesis is that no suffix of the input matches, since a mention match
elsewhere can sit at position zero of a suffix. -/
theorem removeMentions_urlAt {l : List Char} (h : containsUrl l = false) :
    urlAt (removeMentions l) = false := by
  rcases removeMentions_shape l with he | ⟨k, tail, he, hk, htail⟩
  · rw [he]; exact containsUrl_urlAt h
  · rw [he]
    rcases htail with rfl | ⟨t, B, rfl, ht⟩
    · rw [List.append_nil]
      cases hc : urlAt (l.take k) with
      | false => rfl
      | true =>
        have := urlAt_append (l.drop k) hc
        rw [List.take_append_drop] at this
        rw [urlAt_imp_containsUrl this] at h
        exact absurd h (by decide)
    · cases hc : urlAt (l.take k ++ t :: B) with
      | false => rfl
      | true =>
        obtain ⟨s, C, hsC, hs⟩ := mentionAt_head hk
        have := urlAt_swap (l.take k) B C ht hs hc
        rw [← hsC, List.take_append_drop] at this
        rw [urlAt_imp_containsUrl this] at h
        exact absurd h (by decide)

theorem removeMentions_mentionAt {l : List Char} (h : mentionAt l = false) :
    mentionAt (removeMentions l) = false := by
  rcases removeMentions_shape l with he | ⟨k, tail, he, hk, htail⟩
  · rw [he]; exact h
  · rw [he]
    rcases htail with rfl | ⟨t, B, rfl, ht⟩
    · rw [List.append_nil]
      cases hc : mentionAt (l.take k) with
      | false => rfl
      | true =>
        have := mentionAt_append (l.drop k) hc
        rw [List.take_append_drop, h] at this
        exact absurd this (by decide)
    · cases hc : mentionAt (l.take k ++ t :: B) with
      | false => rfl
      | true =>
        rcases hA : l.take k with _ | ⟨a, A'⟩
        · have hk0 : k = 0 ∨ l = [] := List.take_eq_nil_iff.mp hA
          rcases hk0 with rfl | rfl
          · rw [List.drop_zero, h] at hk
            exact absurd hk (by decide)
          · rw [List.drop_nil] at hk
            simp [mentionAt] at hk
        · obtain ⟨s, C, hsC, _⟩ := mentionAt_head hk
          have := mentionAt_swap (A := l.take k) (B := B) (C := C)
            (s := s) (by rw [hA]; simp) ht hc
          rw [← hsC, List.take_append_drop, h] at this
          exact absurd this (by decide)

theorem containsUrl_dropWhile (p : Char → Bool) {l : List Char}
    (h : containsUrl l = false) : containsUrl (l.dropWhile p) = false := by
  induction l with
  | nil => exact h
  | cons c cs ih =>
    simp only [containsUrl, Bool.or_eq_false_iff] at h
    rw [List.dropWhile_cons]
    by_cases hp : p c = true
    · simp only [hp, if_true]
      exact ih h.2
    · simp only [hp, if_false]
      simp [containsUrl, h.1, h.2]

theorem containsMention_dropWhile (p : Char → Bool) {l : List Char}
    (h : containsMention l = false) :
    containsMention (l.dropWhile p) = false := by
  induction l with
  | nil => exact h
  | cons c cs ih =>
    simp only [containsMention, Bool.or_eq_false_iff] at h
    rw [List.dropWhile_cons]
    by_cases hp : p c = true
    · simp only [hp, if_true]
      exact ih h.2
    · simp only [hp, if_false]
      simp [containsMention, h.1, h.2]

/-- After the URL pass no suffix of the output matches the URL pattern:
every `http\S+|www\S+|https\S+` occurrence has been removed. -/
theorem containsUrl_removeUrls : (l : List Char) →
    containsUrl (removeUrls l) = false
  | [] => by rw [removeUrls_nil]; rfl
  | c :: cs => by
    by_cases h : urlAt (c :: cs) = true
    · rw [removeUrls_cons_pos h]
      exact containsUrl_removeUrls _
    · have h' : urlAt (c :: cs) = false := by simpa using h
      have h1 : urlAt (removeUrls (c :: cs)) = false := removeUrls_urlAt h'
      rw [removeUrls_cons_neg h'] at h1 ⊢
      simp [containsUrl, h1, containsUrl_removeUrls cs]
termination_by l => l.length
decreasing_by
  · simp only [List.length_cons]
    exact Nat.lt_succ_of_le (dropWhile_length_le _ _)
  · simp

/-- After the mention pass no suffix of the output matches `@\w+|#\w+`. -/
theorem containsMention_removeMentions : (l : List Char) →
    containsMention (removeMentions l) = false
  | [] => by rw [removeMentions_nil]; rfl
  | c :: cs => by
    by_cases h : mentionAt (c :: cs) = true
    · rw [removeMentions_cons_pos h]
      exact containsMention_removeMentions _
    · have h' : mentionAt (c :: cs) = false := by simpa using h
      have h1 : mentionAt (removeMentions (c :: cs)) = false :=
        removeMentions_mentionAt h'
      rw [removeMentions_cons_neg h'] at h1 ⊢
      simp [containsMention, h1, containsMention_removeMentions cs]
termination_by l => l.length
decreasing_by
  · simp only [List.length_cons]
    exact Nat.lt_succ_of_le (dropWhile_length_le _ _)
  · simp

/-- The mention pass cannot create a URL match: if no suffix of the
input matched the URL pattern, the same holds for the output. -/
theorem containsUrl_removeMentions : (l : List Char) →
    containsUrl l = false → containsUrl (removeMentions l) = false
  | [], h => by rw [removeMentions_nil]; exact h
  | c :: cs, h => by
    have hcs : containsUrl cs = false := by
      simp only [containsUrl, Bool.or_eq_false_iff] at h
      exact h.2
    by_cases hm : mentionAt (c :: cs) = true
    · rw [removeMentions_cons_pos hm]
      exact containsUrl_removeMentions _ (containsUrl_dropWhile _ hcs)
    · have hm' : mentionAt (c :: cs) = false := by simpa using hm
      have h1 : urlAt (removeMentions (c :: cs)) = false :=
        removeMentions_urlAt h
      rw [removeMentions_cons_neg hm'] at h1 ⊢
      simp [containsUrl, h1, containsUrl_removeMentions cs hcs]
termination_by l => l.length
decreasing_by
  · simp only [List.length_cons]
    exact Nat.lt_succ_of_le (dropWhile_length_le _ _)
  · simp

/-- A list with no URL match anywhere passes through `removeUrls`
unchanged. -/
theorem removeUrls_id {l : List Char} (h : containsUrl l = false) :
    removeUrls l = l := by
  induction l with
  | nil => exact removeUrls_nil
  | cons c cs ih =>
    simp only [containsUrl, Bool.or_eq_false_iff] at h
    rw [removeUrls_cons_neg h.1, ih h.2]

/-- A list with no mention match anywhere passes through
`removeMentions` unchanged. -/
theorem removeMentions_id {l : List Char} (h : containsMention l = false) :
    removeMentions l = l := by
  induction l with
  | nil => exact removeMentions_nil
  | cons c cs ih =>
    simp only [containsMention, Bool.or_eq_false_iff] at h
    rw [removeMentions_cons_neg h.1, ih h.2]

/-! ### Properties of `pySplit`, `joinWords`, `pyStrip` -/

theorem pySplit_nil : pySplit [] = [] := by rw [pySplit]

theorem pySplit_cons_space {c : Char} {cs : List Char}
    (h : pyIsSpace c = true) : pySplit (c :: cs) = pySplit cs := by
  rw [pySplit, if_pos h]

theorem pySplit_cons_nonspace {c : Char} {cs : List Char}
    (h : pyIsSpace c = false) :
    pySplit (c :: cs) = (c :: cs.takeWhile (fun x => !pyIsSpace x)) ::
      pySplit (cs.dropWhile (fun x => !pyIsSpace x)) := by
  rw [pySplit, if_neg (by simp [h])]

/-- Every word produced by `pySplit` is non-empty and whitespace-free. -/
theorem pySplit_words : (l : List Char) → ∀ w ∈ pySplit l,
    w ≠ [] ∧ ∀ c ∈ w, pyIsSpace c = false
  | [] => by rw [pySplit_nil]; simp
  | c :: cs => by
    by_cases h : pyIsSpace c = true
    · rw [pySplit_cons_space h]
      exact pySplit_words cs
    · have h' : pyIsSpace c = false := by simpa using h
      rw [pySplit_cons_nonspace h']
      intro w hw
      rcases List.mem_cons.mp hw with rfl | hw'
      · refine ⟨by simp, ?_⟩
        intro x hx
        rcases List.mem_cons.mp hx with rfl | hx'
        · exact h'
        · simpa using List.mem_takeWhile_imp hx'
      · exact pySplit_words _ w hw'
termination_by l => l.length
decreasing_by
  · simp
  · simp only [List.length_cons]
    exact Nat.lt_succ_of_le (dropWhile_length_le _ _)

theorem joinWords_nil : joinWords [] = [] := rfl

theorem joinWords_single (w : List Char) : joinWords [w] = w := rfl

theorem joinWords_cons_cons (w x : List Char) (ws : List (List Char)) :
    joinWords (w :: x :: ws) = w ++ ' ' :: joinWords (x :: ws) := rfl

/-- `pySplit` is a retraction of `joinWords` on lists of non-empty,
whitespace-free words. -/
theorem pySplit_joinWords : (ws : List (List Char)) →
    (∀ w ∈ ws, w ≠ [] ∧ ∀ c ∈ w, pyIsSpace c = false) →
    pySplit (joinWords ws) = ws
  | [], _ => pySplit_nil
  | [w], hws => by
    obtain ⟨hne, hchars⟩ := hws w (by simp)
    rw [joinWords_single]
    cases w with
    | nil => exact absurd rfl hne
    | cons c cs =>
      have hc : pyIsSpace c = false := hchars c (by simp)
      rw [pySplit_cons_nonspace hc]
      have h1 : cs.takeWhile (fun x => !pyIsSpace x) = cs :=
        List.takeWhile_eq_self_iff.mpr
          (fun x hx => by simp [hchars x (List.mem_cons_of_mem c hx)])
      have h2 : cs.dropWhile (fun x => !pyIsSpace x) = [] :=
        List.dropWhile_eq_nil_iff.mpr
          (fun x hx => by simp [hchars x (List.mem_cons_of_mem c hx)])
      rw [h1, h2, pySplit_nil]
  | w :: x :: ws, hws => by
    obtain ⟨hne, hchars⟩ := hws w (by simp)
    rw [joinWords_cons_cons]
    cases w with
    | nil => exact absurd rfl hne
    | cons c cs =>
      have hc : pyIsSpace c = false := hchars c (by simp)
      rw [List.cons_append, pySplit_cons_nonspace hc]
      have hcs : ∀ y ∈ cs, (fun x => !pyIsSpace x) y = true :=
        fun y hy => by simp [hchars y (List.mem_cons_of_mem c hy)]
      rw [List.takeWhile_append_of_pos hcs, List.dropWhile_append_of_pos hcs]
      have hsp : (' ' :: joinWords (x :: ws)).takeWhile
          (fun x => !pyIsSpace x) = [] := by
        rw [List.takeWhile_cons_of_neg (by decide)]
      have hsp2 : (' ' :: joinWords (x :: ws)).dropWhile
          (fun x => !pyIsSpace x) = ' ' :: joinWords (x :: ws) := by
        rw [List.dropWhile_cons_of_neg (by decide)]
      rw [hsp, hsp2, List.append_nil, pySplit_cons_space (by decide)]
      rw [pySplit_joinWords (x :: ws) (fun v hv => hws v (by simp [hv]))]

/-- `joinWords` of non-empty words yields a list with a non-whitespace
head. -/
theorem joinWords_noLeadSpace : (ws : List (List Char)) →
    (∀ w ∈ ws, w ≠ [] ∧ ∀ c ∈ w, pyIsSpace c = false) →
    noLeadSpace (joinWords ws) = true
  | [], _ => rfl
  | [w], hws => by
    obtain ⟨hne, hchars⟩ := hws w (by simp)
    rw [joinWords_single]
    cases w with
    | nil => exact absurd rfl hne
    | cons c cs => simp [noLeadSpace, hchars c (by simp)]
  | w :: x :: ws, hws => by
    obtain ⟨hne, hchars⟩ := hws w (by simp)
    rw [joinWords_cons_cons]
    cases w with
    | nil => exact absurd rfl hne
    | cons c cs => simp [noLeadSpace, hchars c (by simp)]

/-- `joinWords` of non-empty whitespace-free words yields a list with a
non-whitespace last character. -/
theorem joinWords_noTrailSpace : (ws : List (List Char)) →
    (∀ w ∈ ws, w ≠ [] ∧ ∀ c ∈ w, pyIsSpace c = false) →
    noTrailSpace (joinWords ws) = true
  | [], _ => rfl
  | [w], hws => by
    obtain ⟨hne, hchars⟩ := hws w (by simp)
    rw [joinWords_single]
    unfold noTrailSpace
    cases hg : w.getLast? with
    | none => rfl
    | some c =>
      have hc : c ∈ w := List.mem_of_mem_getLast? (hg ▸ rfl)
      simp [hchars c hc]
  | w :: x :: ws, hws => by
    have ih := joinWords_noTrailSpace (x :: ws)
      (fun v hv => hws v (by simp [hv]))
    rw [joinWords_cons_cons]
    unfold noTrailSpace at ih ⊢
    rw [List.getLast?_append]
    obtain ⟨hxne, _⟩ := hws x (by simp)
    have hJ : joinWords (x :: ws) ≠ [] := by
      cases ws with
      | nil =>
        rw [joinWords_single]
        exact hxne
      | cons y ys =>
        rw [joinWords_cons_cons]
        cases x with
        | nil => exact absurd rfl hxne
        | cons a as => simp
    cases hg : (joinWords (x :: ws)).getLast? with
    | none => exact absurd (List.getLast?_eq_none_iff.mp hg) hJ
    | some c =>
      rw [hg] at ih
      have : (' ' :: joinWords (x :: ws)).getLast? = some c := by
        cases hJl : joinWords (x :: ws) with
        | nil => exact absurd hJl hJ
        | cons a as =>
          rw [hJl] at hg
          rw [List.getLast?_cons_cons, hg]
      rw [this]
      simpa using ih

theorem noDoubleSpace_of_nonspace : (w : List Char) →
    (∀ c ∈ w, pyIsSpace c = false) → noDoubleSpace w = true
  | [], _ => rfl
  | [c], _ => rfl
  | c :: d :: w', h => by
    simp only [noDoubleSpace]
    rw [noDoubleSpace_of_nonspace (d :: w')
      (fun x hx => h x (List.mem_cons_of_mem c hx))]
    simp [h c (by simp)]

theorem noDoubleSpace_word_space : (w : List Char) →
    (∀ c ∈ w, pyIsSpace c = false) → {J : List Char} →
    noLeadSpace J = true → noDoubleSpace J = true →
    noDoubleSpace (w ++ ' ' :: J) = true
  | [], _, J, hJl, hJd => by
    cases J with
    | nil => rfl
    | cons j J' =>
      simp only [List.nil_append, noDoubleSpace]
      simp only [noLeadSpace] at hJl
      simp [hJl, hJd]
  | [c], hw, J, hJl, hJd => by
    have hc : pyIsSpace c = false := hw c (by simp)
    have base := noDoubleSpace_word_space [] (by simp) hJl hJd
    simp only [List.nil_append] at base
    simp only [List.cons_append, List.nil_append, noDoubleSpace]
    simp [hc, base]
  | c :: c2 :: w', hw, J, hJl, hJd => by
    have hc : pyIsSpace c = false := hw c (by simp)
    have h2 := noDoubleSpace_word_space (c2 :: w')
      (fun x hx => hw x (List.mem_cons_of_mem c hx)) hJl hJd
    simp only [List.cons_append, noDoubleSpace] at h2 ⊢
    simp [hc, h2]

/-- `joinWords` of non-empty whitespace-free words never contains two
adjacent whitespace characters. -/
theorem joinWords_noDoubleSpace : (ws : List (List Char)) →
    (∀ w ∈ ws, w ≠ [] ∧ ∀ c ∈ w, pyIsSpace c = false) →
    noDoubleSpace (joinWords ws) = true
  | [], _ => rfl
  | [w], hws => by
    obtain ⟨_, hchars⟩ := hws w (by simp)
    rw [joinWords_single]
    exact noDoubleSpace_of_nonspace w hchars
  | w :: x :: ws, hws => by
    obtain ⟨_, hchars⟩ := hws w (by simp)
    rw [joinWords_cons_cons]
    exact noDoubleSpace_word_space w hchars
      (joinWords_noLeadSpace (x :: ws) (fun v hv => hws v (by simp [hv])))
      (joinWords_noDoubleSpace (x :: ws) (fun v hv => hws v (by simp [hv])))

/-- `pyStrip` is the identity on lists with non-whitespace ends. -/
theorem pyStrip_id {l : List Char} (h1 : noLeadSpace l = true)
    (h2 : noTrailSpace l = true) : pyStrip l = l := by
  unfold pyStrip
  have e1 : l.dropWhile pyIsSpace = l := by
    cases l with
    | nil => rfl
    | cons c cs =>
      simp only [noLeadSpace, Bool.not_eq_eq_eq_not, Bool.not_true] at h1
      exact List.dropWhile_cons_of_neg (by simp [h1])
  rw [e1]
  have e2 : l.reverse.dropWhile pyIsSpace = l.reverse := by
    cases hr : l.reverse with
    | nil => rfl
    | cons c cs =>
      have hc : l.getLast? = some c := by
        rw [← List.head?_reverse, hr]
        rfl
      unfold noTrailSpace at h2
      rw [hc] at h2
      exact List.dropWhile_cons_of_neg (by simp_all)
  rw [e2, List.reverse_reverse]

/-! ### Matches cannot survive whitespace normalization -/

theorem containsUrl_append_mono {A x : List Char}
    (h : containsUrl A = true) : containsUrl (A ++ x) = true := by
  induction A with
  | nil => exact absurd h (by simp [containsUrl])
  | cons a A' ih =>
    simp only [containsUrl, Bool.or_eq_true] at h
    rcases h with h | h
    · simp only [List.cons_append, containsUrl, Bool.or_eq_true]
      exact Or.inl (by simpa using urlAt_append x h)
    · simp only [List.cons_append, containsUrl, Bool.or_eq_true]
      exact Or.inr (ih h)

theorem containsMention_append_mono {A x : List Char}
    (h : containsMention A = true) : containsMention (A ++ x) = true := by
  induction A with
  | nil => exact absurd h (by simp [containsMention])
  | cons a A' ih =>
    simp only [containsMention, Bool.or_eq_true] at h
    rcases h with h | h
    · simp only [List.cons_append, containsMention, Bool.or_eq_true]
      exact Or.inl (by simpa using mentionAt_append x h)
    · simp only [List.cons_append, containsMention, Bool.or_eq_true]
      exact Or.inr (ih h)

theorem containsUrl_append_left {A x : List Char}
    (h : containsUrl (A ++ x) = false) : containsUrl A = false := by
  cases hc : containsUrl A with
  | false => rfl
  | true => rw [containsUrl_append_mono hc] at h; exact absurd h (by decide)

theorem containsMention_append_left {A x : List Char}
    (h : containsMention (A ++ x) = false) : containsMention A = false := by
  cases hc : containsMention A with
  | false => rfl
  | true =>
    rw [containsMention_append_mono hc] at h
    exact absurd h (by decide)

/-- Gluing two match-free pieces with a space cannot create a URL match:
the space blocks every window that would cross it. -/
theorem containsUrl_append_space {w J : List Char}
    (hw : containsUrl w = false) (hJ : containsUrl J = false) :
    containsUrl (w ++ ' ' :: J) = false := by
  induction w with
  | nil =>
    simp [containsUrl, urlAt_space_cons (w := ' ') J (by decide), hJ]
  | cons c cs ih =>
    simp only [containsUrl, Bool.or_eq_false_iff] at hw
    have hsp : urlAt ((c :: cs) ++ ' ' :: J) = false := by
      rw [urlAt_space_split (c :: cs) J (by decide)]
      exact hw.1
    simp only [List.cons_append] at hsp ⊢
    simp [containsUrl, hsp, ih hw.2]

theorem containsMention_append_space {w J : List Char}
    (hw : containsMention w = false) (hJ : containsMention J = false) :
    containsMention (w ++ ' ' :: J) = false := by
  induction w with
  | nil =>
    simp [containsMention, mentionAt_space_cons (w := ' ') J (by decide), hJ]
  | cons c cs ih =>
    simp only [containsMention, Bool.or_eq_false_iff] at hw
    have hsp : mentionAt ((c :: cs) ++ ' ' :: J) = false := by
      rw [mentionAt_space_split (c :: cs) J (by decide)]
      exact hw.1
    simp only [List.cons_append] at hsp ⊢
    simp [containsMention, hsp, ih hw.2]

/-- Whitespace normalization (`' '.join(text.split())`) preserves the
absence of URL matches. -/
theorem containsUrl_normalize : (l : List Char) → containsUrl l = false →
    containsUrl (joinWords (pySplit l)) = false
  | [], _ => by rw [pySplit_nil]; rfl
  | c :: cs, h => by
    have hcs : containsUrl cs = false := by
      simp only [containsUrl, Bool.or_eq_false_iff] at h
      exact h.2
    by_cases hc : pyIsSpace c = true
    · rw [pySplit_cons_space hc]
      exact containsUrl_normalize cs hcs
    · have hc' : pyIsSpace c = false := by simpa using hc
      rw [pySplit_cons_nonspace hc']
      have hword : containsUrl (c :: cs.takeWhile (fun x => !pyIsSpace x))
          = false := by
        refine containsUrl_append_left (x := cs.dropWhile (fun x => !pyIsSpace x)) ?_
        rw [List.cons_append, List.takeWhile_append_dropWhile]
        exact h
      have hrest := containsUrl_normalize
        (cs.dropWhile (fun x => !pyIsSpace x))
        (containsUrl_dropWhile _ hcs)
      cases hsp : pySplit (cs.dropWhile (fun x => !pyIsSpace x)) with
      | nil => rw [joinWords_single]; exact hword
      | cons v vs =>
        rw [← hsp, joinWords]
        · exact containsUrl_append_space hword (hsp ▸ hrest)
        · rw [hsp]; simp
termination_by l => l.length
decreasing_by
  · simp
  · simp only [List.length_cons]
    exact Nat.lt_succ_of_le (dropWhile_length_le _ _)

/-- Whitespace normalization preserves the absence of mention matches. -/
theorem containsMention_normalize : (l : List Char) →
    containsMention l = false →
    containsMention (joinWords (pySplit l)) = false
  | [], _ => by rw [pySplit_nil]; rfl
  | c :: cs, h => by
    have hcs : containsMention cs = false := by
      simp only [containsMention, Bool.or_eq_false_iff] at h
      exact h.2
    by_cases hc : pyIsSpace c = true
    · rw [pySplit_cons_space hc]
      exact containsMention_normalize cs hcs
    · have hc' : pyIsSpace c = false := by simpa using hc
      rw [pySplit_cons_nonspace hc']
      have hword : containsMention
          (c :: cs.takeWhile (fun x => !pyIsSpace x)) = false := by
        refine containsMention_append_left
          (x := cs.dropWhile (fun x => !pyIsSpace x)) ?_
        rw [List.cons_append, List.takeWhile_append_dropWhile]
        exact h
      have hrest := containsMention_normalize
        (cs.dropWhile (fun x => !pyIsSpace x))
        (containsMention_dropWhile _ hcs)
      cases hsp : pySplit (cs.dropWhile (fun x => !pyIsSpace x)) with
      | nil => rw [joinWords_single]; exact hword
      | cons v vs =>
        rw [← hsp, joinWords]
        · exact containsMention_append_space hword (hsp ▸ hrest)
        · rw [hsp]; simp
termination_by l => l.length
decreasing_by
  · simp
  · simp only [List.length_cons]
    exact Nat.lt_succ_of_le (dropWhile_length_le _ _)

/-! ### Characterization of `clean_text` -/

/-- The normalized core of `clean_text`, before the final (redundant)
`strip`. -/
theorem clean_text_eq_join (s : List Char) :
    clean_text s =
      joinWords (pySplit (removeMentions (removeUrls s))) := by
  unfold clean_text
  exact pyStrip_id
    (joinWords_noLeadSpace _ (pySplit_words _))
    (joinWords_noTrailSpace _ (pySplit_words _))

/-- The words of `clean_text s` are exactly the words of the
double-removal pass. -/
theorem pySplit_clean_text (s : List Char) :
    pySplit (clean_text s) =
      pySplit (removeMentions (removeUrls s)) := by
  rw [clean_text_eq_join]
  exact pySplit_joinWords _ (pySplit_words _)

/-- No suffix of `clean_text s` matches the URL pattern. -/
theorem containsUrl_clean_text (s : List Char) :
    containsUrl (clean_text s) = false := by
  rw [clean_text_eq_join]
  exact containsUrl_normalize _
    (containsUrl_removeMentions _ (containsUrl_removeUrls s))

/-- No suffix of `clean_text s` matches the mention pattern. -/
theorem containsMention_clean_text (s : List Char) :
    containsMention (clean_text s) = false := by
  rw [clean_text_eq_join]
  exact containsMention_normalize _ (containsMention_removeMentions _)

theorem containsUrl_of_space {l : List Char}
    (h : ∀ c ∈ l, pyIsSpace c = true) : containsUrl l = false := by
  induction l with
  | nil => rfl
  | cons c cs ih =>
    simp only [containsUrl, Bool.or_eq_false_iff]
    exact ⟨urlAt_space_cons cs (h c (by simp)),
      ih (fun x hx => h x (List.mem_cons_of_mem c hx))⟩

theorem containsMention_of_space {l : List Char}
    (h : ∀ c ∈ l, pyIsSpace c = true) : containsMention l = false := by
  induction l with
  | nil => rfl
  | cons c cs ih =>
    simp only [containsMention, Bool.or_eq_false_iff]
    exact ⟨mentionAt_space_cons cs (h c (by simp)),
      ih (fun x hx => h x (List.mem_cons_of_mem c hx))⟩

theorem pySplit_of_space {l : List Char}
    (h : ∀ c ∈ l, pyIsSpace c = true) : pySplit l = [] := by
  induction l with
  | nil => exact pySplit_nil
  | cons c cs ih =>
    rw [pySplit_cons_space (h c (by simp))]
    exact ih (fun x hx => h x (List.mem_cons_of_mem c hx))

/-! ### Characterization of the labeling policy -/

theorem classifySentiment_pos_iff (p : ℚ) :
    classifySentiment p = ("positive") ↔ p > 1/10 := by
  unfold classifySentiment
  split_ifs with h1 h2
  · exact ⟨fun _ => h1, fun _ => rfl⟩
  · constructor
    · intro hc; exact absurd hc (by decide)
    · intro hc; exact absurd hc h1
  · constructor
    · intro hc; exact absurd hc (by decide)
    · intro hc; exact absurd hc h1

theorem classifySentiment_neg_iff (p : ℚ) :
    classifySentiment p = ("negative") ↔ p < -(1/10) := by
  unfold classifySentiment
  split_ifs with h1 h2
  · constructor
    · intro hc; exact absurd hc (by decide)
    · intro hc; linarith
  · exact ⟨fun _ => h2, fun _ => rfl⟩
  · constructor
    · intro hc; exact absurd hc (by decide)
    · intro hc; exact absurd hc h2

theorem classifySentiment_neutral_iff (p : ℚ) :
    classifySentiment p = ("neutral") ↔ -(1/10) ≤ p ∧ p ≤ 1/10 := by
  unfold classifySentiment
  split_ifs with h1 h2
  · constructor
    · intro hc; exact absurd hc (by decide)
    · intro hc; linarith [hc.2]
  · constructor
    · intro hc; exact absurd hc (by decide)
    · intro hc; linarith [hc.1]
  · push_neg at h1 h2
    constructor
    · intro _
      exact ⟨h2, h1⟩
    · intro _
      rfl

/-! ### The claims -/

/-- Claim C1: for every polarity value returned by the scorer,
`analyze_sentiment` assigns `sentiment_label` by the exact threshold
rule — `positive` iff `polarity > 0.1`, `negative` iff
`polarity < -0.1`, `neutral` otherwise — with no gap or overlap at the
boundaries; a polarity of exactly `0.1` or exactly `-0.1` yields
`neutral`. -/
theorem analyze_sentiment_threshold_rule
    (score : List Char → Option (ℚ × ℚ)) (text : List Char) (p sub : ℚ)
    (h : score (clean_text text) = some (p, sub)) :
    ((analyze_sentiment score text).sentiment_label = ("positive") ↔
        p > 1/10) ∧
    ((analyze_sentiment score text).sentiment_label = ("negative") ↔
        p < -(1/10)) ∧
    ((analyze_sentiment score text).sentiment_label = ("neutral") ↔
        -(1/10) ≤ p ∧ p ≤ 1/10) ∧
    (p = 1/10 ∨ p = -(1/10) →
      (analyze_sentiment score text).sentiment_label = ("neutral")) := by
  have hl : (analyze_sentiment score text).sentiment_label =
      classifySentiment p := by
    unfold analyze_sentiment
    rw [h]
  rw [hl]
  refine ⟨classifySentiment_pos_iff p, classifySentiment_neg_iff p,
    classifySentiment_neutral_iff p, ?_⟩
  intro hc
  rcases hc with rfl | rfl <;>
    (rw [classifySentiment_neutral_iff]; norm_num)

theorem analyze_sentiment_threshold_rule_witness :
    ((analyze_sentiment (fun _ => some (3/10, 1/2))
        (("good").toList)).sentiment_label = ("positive") ↔
        (3/10 : ℚ) > 1/10) ∧
    ((analyze_sentiment (fun _ => some (3/10, 1/2))
        (("good").toList)).sentiment_label = ("negative") ↔
        (3/10 : ℚ) < -(1/10)) ∧
    ((analyze_sentiment (fun _ => some (3/10, 1/2))
        (("good").toList)).sentiment_label = ("neutral") ↔
        -(1/10) ≤ (3/10 : ℚ) ∧ (3/10 : ℚ) ≤ 1/10) ∧
    ((3/10 : ℚ) = 1/10 ∨ (3/10 : ℚ) = -(1/10) →
      (analyze_sentiment (fun _ => some (3/10, 1/2))
        (("good").toList)).sentiment_label = ("neutral")) :=
  analyze_sentiment_threshold_rule (fun _ => some (3/10, 1/2))
    (("good").toList) (3/10) (1/2) rfl

/-- Claim C2: `analyze_sentiment` never raises; on internal failure (the
scorer failing on the cleaned text) it returns the exact neutral-default
result whose `cleaned_text` is the original, uncleaned input, with
`polarity = 0`, `subjectivity = 0`, `sentiment_label = "neutral"` and
`confidence = 0`.  In the embedding totality is built in, and failure is
the scorer returning `none`. -/
theorem analyze_sentiment_failure_default
    (score : List Char → Option (ℚ × ℚ)) (text : List Char)
    (h : score (clean_text text) = none) :
    analyze_sentiment score text =
      { cleaned_text := text, polarity := 0, subjectivity := 0,
        sentiment_label := ("neutral"), confidence := 0 } := by
  unfold analyze_sentiment
  rw [h]
  rfl

theorem analyze_sentiment_failure_default_witness :
    analyze_sentiment (fun _ => none) (("@@bad input").toList) =
      { cleaned_text := (("@@bad input").toList), polarity := 0,
        subjectivity := 0, sentiment_label := ("neutral"),
        confidence := 0 } :=
  analyze_sentiment_failure_default (fun _ => none)
    (("@@bad input").toList) rfl

/-- Claim C3: the cleaning function is idempotent:
`clean_text (clean_text s) = clean_text s` for every input. -/
theorem clean_text_idempotent (s : List Char) :
    clean_text (clean_text s) = clean_text s := by
  have h1 : removeUrls (clean_text s) = clean_text s :=
    removeUrls_id (containsUrl_clean_text s)
  have h2 : removeMentions (clean_text s) = clean_text s :=
    removeMentions_id (containsMention_clean_text s)
  rw [clean_text_eq_join (clean_text s), h1, h2, pySplit_clean_text s,
    ← clean_text_eq_join s]

/-- Claim C4: in every result of `analyze_sentiment` — success path or
failure fallback — `confidence` equals `abs(polarity)` exactly. -/
theorem confidence_eq_abs_polarity
    (score : List Char → Option (ℚ × ℚ)) (text : List Char) :
    (analyze_sentiment score text).confidence =
      |(analyze_sentiment score text).polarity| := by
  unfold analyze_sentiment
  cases score (clean_text text) with
  | none => simp [neutralDefault]
  | some ps =>
    cases ps with
    | mk p sub => simp

/-- Claim C5: the cleaned output contains no substring matching the URL
pattern and no `@token`/`#token` substring, wherever they occurred in
the input (`containsUrl`/`containsMention` check a match of the source
regexes at every position); in particular the test-suite input cleans to
a text containing none of `https://`, `@user`, `#hashtag`. -/
theorem clean_text_removes_all_patterns (s : List Char) :
    containsUrl (clean_text s) = false ∧
    containsMention (clean_text s) = false ∧
    occursIn (("https://").toList)
      (clean_text
        (("Check out this link: https://example.com @user #hashtag").toList))
      = false ∧
    occursIn (("@user").toList)
      (clean_text
        (("Check out this link: https://example.com @user #hashtag").toList))
      = false ∧
    occursIn (("#hashtag").toList)
      (clean_text
        (("Check out this link: https://example.com @user #hashtag").toList))
      = false := by
  have he : clean_text
      (("Check out this link: https://example.com @user #hashtag").toList)
      = ("Check out this link:").toList := by
    simp [clean_text, removeUrls, removeMentions, pySplit, joinWords,
      pyStrip, urlAt, mentionAt, listStarts, hdNonspace, pyIsSpace,
      pyIsWordChar, String.toList]
  refine ⟨containsUrl_clean_text s, containsMention_clean_text s,
    ?_, ?_, ?_⟩ <;> (rw [he]; decide)

/-- Claim C6: `clean_text` is exactly the three-step composition, in
order: URL removal, then mention/hashtag removal, then whitespace
collapsing and trimming. -/
theorem clean_text_is_three_step_composition (s : List Char) :
    clean_text s = collapseWhitespace (removeMentions (removeUrls s)) :=
  rfl

/-- Claim C7: `batch_analyze` over `n` records returns exactly `n`
results in input order; the result paired with record `i` is exactly the
single-record `analyze_sentiment` of that record's `text` (no
cross-record interaction), and a scorer failure on record `i` yields the
neutral default for that record alone, never aborting the others (the
batch is a total per-element map). -/
theorem batch_analyze_pointwise
    (score : List Char → Option (ℚ × ℚ)) (tweets : List TextRecord)
    (i : Nat) (h : i < tweets.length) :
    (batch_analyze score tweets).length = tweets.length ∧
    ∃ t, tweets[i]? = some t ∧
      (batch_analyze score tweets)[i]? =
        some (t, analyze_sentiment score t.text) ∧
      (score (clean_text t.text) = none →
        (batch_analyze score tweets)[i]? =
          some (t, neutralDefault t.text)) := by
  refine ⟨by simp [batch_analyze], ?_⟩
  refine ⟨tweets.get ⟨i, h⟩, ?_, ?_, ?_⟩
  · rw [List.getElem?_eq_getElem h]
    rfl
  · unfold batch_analyze
    rw [List.getElem?_map, List.getElem?_eq_getElem h]
    rfl
  · intro hn
    unfold batch_analyze
    rw [List.getElem?_map, List.getElem?_eq_getElem h]
    have heq : analyze_sentiment score (tweets.get ⟨i, h⟩).text =
        neutralDefault (tweets.get ⟨i, h⟩).text := by
      unfold analyze_sentiment
      rw [hn]
    show some (tweets.get ⟨i, h⟩,
      analyze_sentiment score (tweets.get ⟨i, h⟩).text) = _
    rw [heq]

theorem batch_analyze_pointwise_witness :
    (batch_analyze (fun _ => none)
        [({ text := ("hi").toList } : TextRecord)]).length =
      [({ text := ("hi").toList } : TextRecord)].length ∧
    ∃ t, [({ text := ("hi").toList } : TextRecord)][0]? = some t ∧
      (batch_analyze (fun _ => none)
        [({ text := ("hi").toList } : TextRecord)])[0]? =
        some (t, analyze_sentiment (fun _ => none) t.text) ∧
      ((fun _ => (none : Option (ℚ × ℚ))) (clean_text t.text) = none →
        (batch_analyze (fun _ => none)
          [({ text := ("hi").toList } : TextRecord)])[0]? =
          some (t, neutralDefault t.text)) :=
  batch_analyze_pointwise (fun _ => none)
    [({ text := ("hi").toList } : TextRecord)] 0 (by decide)

/-- Claim C8: `analyze_sentiment` is a deterministic, stateless pure
transformation: the instance state (the logger handle) is returned
unchanged, the result coincides with the pure function of the input and
scorer, is identical across instance states, and a repeated call with
the same input after a first call returns the identical result. -/
theorem analyze_sentiment_stateless_deterministic
    (score : List Char → Option (ℚ × ℚ)) (st st2 : AnalyzerState)
    (text : List Char) :
    (analyze_sentiment_method score st text).2.1 = st ∧
    (analyze_sentiment_method score st text).1 =
      analyze_sentiment score text ∧
    (analyze_sentiment_method score st text).1 =
      (analyze_sentiment_method score st2 text).1 ∧
    (analyze_sentiment_method score
        ((analyze_sentiment_method score st text).2.1) text).1 =
      (analyze_sentiment_method score st text).1 := by
  unfold analyze_sentiment_method analyze_sentiment
  cases score (clean_text text) with
  | none => exact ⟨rfl, rfl, rfl, rfl⟩
  | some ps =>
    cases ps with
    | mk p sub => exact ⟨rfl, rfl, rfl, rfl⟩

/-- Claim C9: the inline Spark UDF is equivalent to
`SentimentAnalyzer.analyze_sentiment` given the same scorer: its
`(polarity, subjectivity, sentiment_label, confidence)` tuple equals the
corresponding four fields of `analyze_sentiment`'s result, on the
success path and on the failure fallback alike. -/
theorem analyze_sentiment_udf_equiv
    (score : List Char → Option (ℚ × ℚ)) (text : List Char) :
    analyze_sentiment_udf score text =
      ((analyze_sentiment score text).polarity,
        (analyze_sentiment score text).subjectivity,
        (analyze_sentiment score text).sentiment_label,
        (analyze_sentiment score text).confidence) := by
  have hc : udfClean text = clean_text text := rfl
  unfold analyze_sentiment_udf analyze_sentiment
  rw [hc]
  cases score (clean_text text) with
  | none => rfl
  | some ps =>
    cases ps with
    | mk p sub => rfl

/-- Claim C10: the output of `clean_text` is whitespace-normalized — no
leading or trailing whitespace and no two consecutive whitespace
characters — and a whitespace-only input cleans to the empty string. -/
theorem clean_text_whitespace_normalized (s : List Char) :
    noLeadSpace (clean_text s) = true ∧
    noDoubleSpace (clean_text s) = true ∧
    noTrailSpace (clean_text s) = true ∧
    ((∀ c ∈ s, pyIsSpace c = true) → clean_text s = []) := by
  refine ⟨?_, ?_, ?_, ?_⟩
  · rw [clean_text_eq_join]
    exact joinWords_noLeadSpace _ (pySplit_words _)
  · rw [clean_text_eq_join]
    exact joinWords_noDoubleSpace _ (pySplit_words _)
  · rw [clean_text_eq_join]
    exact joinWords_noTrailSpace _ (pySplit_words _)
  · intro hs
    rw [clean_text_eq_join, removeUrls_id (containsUrl_of_space hs),
      removeMentions_id (containsMention_of_space hs), pySplit_of_space hs]
    rfl

theorem clean_text_whitespace_normalized_witness :
    noLeadSpace (clean_text (("  ").toList)) = true ∧
    noDoubleSpace (clean_text (("  ").toList)) = true ∧
    noTrailSpace (clean_text (("  ").toList)) = true ∧
    ((∀ c ∈ (("  ").toList), pyIsSpace c = true) →
      clean_text (("  ").toList) = []) :=
  clean_text_whitespace_normalized (("  ").toList)
